import Mathlib

/-!
Verification of the litepos/pytools utilities: a shallow embedding of the
pure text-processing cores of the three scripts
(`caps_qrun_helper.py`, `auto_sort_gui.py`, `rclone_mount_gui.py`)
together with proofs of the specified properties.

Strings are modelled as `List Char` (Python `str` is a sequence of Unicode
code points).  Python dicts are modelled as association lists with
Python-dict update semantics (update-in-place keeps position, new keys are
appended).
-/

namespace PyTools

abbrev Str := List Char

/-- Python dict with `Str` keys: association list in insertion order. -/
abbrev Dict (α : Type) := List (Str × α)

def dkeys {α : Type} (d : Dict α) : List Str := d.map Prod.fst

def dmem {α : Type} (k : Str) : Dict α → Bool
  | [] => false
  | (k2, _) :: rest => decide (k2 = k) || dmem k rest

def dlookup {α : Type} (d : Dict α) (k : Str) : Option α :=
  match d with
  | [] => none
  | (k2, v) :: rest => if k = k2 then some v else dlookup rest k

/-- Replacement of the value stored at a key, keeping its position. -/
def dreplace {α : Type} : Dict α → Str → α → Dict α
  | [], _, _ => []
  | (k2, v2) :: rest, k, v =>
    if k2 = k then (k2, v) :: dreplace rest k v else (k2, v2) :: dreplace rest k v

/-- `d[k] = v` on a Python dict: replace in place if the key is present,
otherwise append at the end. -/
def dinsert {α : Type} (d : Dict α) (k : Str) (v : α) : Dict α :=
  if dmem k d then dreplace d k v else d ++ [(k, v)]

/-- `d.update(e)` on Python dicts. -/
def dictUpdate {α : Type} (d e : Dict α) : Dict α :=
  e.foldl (fun acc kv => dinsert acc kv.1 kv.2) d

def concatAll (ls : List Str) : Str := ls.foldr (fun a b => a ++ b) []

-- ---------------------------------------------------------------------------
-- Character classes used by the Python string methods involved.
-- ---------------------------------------------------------------------------

/-- The character set of Python `str.isspace` (what no-argument
`strip` and `lstrip` remove). -/
def isPySpace (c : Char) : Bool :=
  c == ' ' || c == '\t' || c == '\n' || c == '\r' ||
  c.toNat == 11 || c.toNat == 12 ||
  (28 ≤ c.toNat && c.toNat ≤ 31) || c.toNat == 133 || c.toNat == 160 ||
  c.toNat == 0x1680 || (0x2000 ≤ c.toNat && c.toNat ≤ 0x200A) ||
  c.toNat == 0x2028 || c.toNat == 0x2029 || c.toNat == 0x202F ||
  c.toNat == 0x205F || c.toNat == 0x3000

/-- The line-boundary characters of Python `str.splitlines`
(besides the two-character boundary `"\r\n"`). -/
def isLineBreakCh (c : Char) : Bool :=
  c == '\n' || c == '\r' || c.toNat == 11 || c.toNat == 12 ||
  c.toNat == 28 || c.toNat == 29 || c.toNat == 30 || c.toNat == 133 ||
  c.toNat == 0x2028 || c.toNat == 0x2029

def isUpperCh (c : Char) : Bool := 65 ≤ c.toNat && c.toNat ≤ 90

def isLowerCh (c : Char) : Bool := 97 ≤ c.toNat && c.toNat ≤ 122

def isDigitCh (c : Char) : Bool := 48 ≤ c.toNat && c.toNat ≤ 57

def isLetterCh (c : Char) : Bool := isUpperCh c || isLowerCh c

/-- The regex class `[A-Za-z0-9_]` of `sanitize_key`. -/
def isWordCh (c : Char) : Bool := isLetterCh c || isDigitCh c || c == '_'

/-- The regex class `[A-Za-z_]` used for the first character check. -/
def isLeadCh (c : Char) : Bool := isLetterCh c || c == '_'

/-- Full match of `[A-Za-z_][A-Za-z0-9_]*`. -/
def isIdentStr (s : Str) : Bool :=
  match s with
  | [] => false
  | c :: t => isLeadCh c && t.all isWordCh

def lowerStr (s : Str) : Str := s.map Char.toLower

def pyLStrip (s : Str) : Str := s.dropWhile isPySpace

def pyRStrip (s : Str) : Str := (s.reverse.dropWhile isPySpace).reverse

/-- Python `str.strip()` (no argument: strips whitespace at both ends). -/
def pyStrip (s : Str) : Str := pyRStrip (pyLStrip s)

-- ---------------------------------------------------------------------------
-- caps_qrun_helper.py : key sanitisation and grouping
-- ---------------------------------------------------------------------------

/-- One run of `re.sub` with pattern `_+` replaced by `_`: inside a maximal
run of underscores every underscore that is followed by another underscore
is dropped, keeping a single `_` per run. -/
def collapseUS : Str → Str
  | [] => []
  | c :: rest =>
    if c = '_' ∧ rest.head? = some '_' then collapseUS rest
    else c :: collapseUS rest

def dropLeadUS (s : Str) : Str := s.dropWhile (fun c => c == '_')

def dropTrailUS (s : Str) : Str := (s.reverse.dropWhile (fun c => c == '_')).reverse

/-- Python `str.strip("_")`. -/
def stripUS (s : Str) : Str := dropTrailUS (dropLeadUS s)

/-- No two adjacent underscores (the invariant established by
`collapseUS`, used to reason about idempotence). -/
def noDoubleUS : Str → Bool
  | [] => true
  | [_] => true
  | a :: b :: t => !(decide (a = '_') && decide (b = '_')) && noDoubleUS (b :: t)

/-- The last step of `sanitize_key`: an empty or badly led result is fixed
up with the `APP` prefix. -/
def sanitizeFinish (safe : Str) : Str :=
  if h : safe = [] then ['A', 'P', 'P']
  else if isLeadCh (safe.head h) then safe
  else ['A', 'P', 'P', '_'] ++ safe

/-- The ASCII-only tail of `sanitize_key`: replace every character outside
`[A-Za-z0-9_]` by `_`, collapse runs of `_`, strip `_` at both ends, then
`sanitizeFinish`. -/
def sanitizeCore (s : Str) : Str :=
  sanitizeFinish (stripUS (collapseUS (s.map (fun c => if isWordCh c then c else '_'))))

/--
`sanitize_key` from `caps_qrun_helper.py`.

The first step of the source is
`unicodedata.normalize("NFKD", raw).encode("ascii", "ignore")`: the NFKD
decomposition tables are not part of the repository, so the decomposition is
a parameter `nfkd : Char → List Char` (NFKD maps every ASCII character to
itself; theorems that need this take it as a hypothesis), while the
`"ignore"` ASCII encoding is the explicit filter `toNat < 128`.
`raw_name is None` is modelled by an `Option` argument.
-/
def sanitize_key (nfkd : Char → List Char) (raw_name : Option Str) : Str :=
  sanitizeCore (((raw_name.getD []).map nfkd).flatten.filter (fun c => c.toNat < 128))

/--
The suffix language of `_group_suffix_re = (?:_\d+|(?:_?x64|_?x86|64|32))$`
with `re.IGNORECASE`: a whole suffix `t` matches iff `t` is `_` followed by
one or more digits, or (case-insensitively) one of
`_x64, x64, _x86, x86, 64, 32`.
-/
def isGroupSuffix (t : Str) : Bool :=
  (match t with
   | '_' :: ds => !ds.isEmpty && ds.all isDigitCh
   | _ => false) ||
  lowerStr t == ['_', 'x', '6', '4'] || lowerStr t == ['x', '6', '4'] ||
  lowerStr t == ['_', 'x', '8', '6'] || lowerStr t == ['x', '8', '6'] ||
  lowerStr t == ['6', '4'] || lowerStr t == ['3', '2']

/-- `_group_suffix_re.sub("", name)`: the regex is anchored at the end, so
`re.sub` removes the suffix starting at the leftmost position from which the
rest of the string matches, i.e. the longest matching suffix. -/
def removeGroupSuffix : Str → Str
  | [] => []
  | c :: t => if isGroupSuffix (c :: t) then [] else c :: removeGroupSuffix t

/-- `key_group` from `caps_qrun_helper.py`. -/
def key_group (name : Str) : Str :=
  if name = [] then [] else lowerStr (removeGroupSuffix name)

-- ---------------------------------------------------------------------------
-- caps_qrun_helper.py : INI structure
-- ---------------------------------------------------------------------------

def CRLF : Str := ['\r', '\n']

/-- Python `str.splitlines(keepends=True)`, accumulator-based scan. -/
def splitLinesAux : Str → Str → List Str
  | [], acc => if acc.isEmpty then [] else [acc.reverse]
  | '\r' :: '\n' :: rest, acc => (acc.reverse ++ ['\r', '\n']) :: splitLinesAux rest []
  | c :: rest, acc =>
    if isLineBreakCh c then (acc.reverse ++ [c]) :: splitLinesAux rest []
    else splitLinesAux rest (c :: acc)

def splitLinesKE (s : Str) : List Str := splitLinesAux s []

/-- `_strip_bom`: `lstrip("﻿").lstrip("￾").lstrip("﻿")`. -/
def stripBom (s : Str) : Str :=
  ((s.dropWhile (· == '﻿')).dropWhile (· == '￾')).dropWhile (· == '﻿')

/-- Test of `_strip_bom(ln).strip().lower() == "[qrun]"` (the header
comparison of `get_qrun_bounds` with the constant section name `QRun`). -/
def isQrunHeader (ln : Str) : Bool :=
  lowerStr (pyStrip (stripBom ln)) == ['[', 'q', 'r', 'u', 'n', ']']

/-- Test of `token = ln.lstrip(); token.startswith("[") and "]" in token`. -/
def isSectionStartLine (ln : Str) : Bool :=
  (pyLStrip ln).head? == some '[' && (pyLStrip ln).contains ']'

/-- `get_qrun_bounds` (for the fixed section `QRun`): the split lines plus
`none` when no header was found, or `some (start, end)`. -/
def get_qrun_bounds (text : Str) : List Str × Option (Nat × Nat) :=
  let lines := splitLinesKE text
  match lines.findIdx? isQrunHeader with
  | none => (lines, none)
  | some s =>
    match (lines.drop (s + 1)).findIdx? isSectionStartLine with
    | none => (lines, some (s, lines.length))
    | some j => (lines, some (s, s + 1 + j))

/-- One iteration of the `parse_section_as_dict` loop. -/
def parse_line_into (d : Dict Str) (ln : Str) : Dict Str :=
  let raw := stripBom ln
  let s := pyStrip raw
  if s.isEmpty || s.head? == some ';' || s.head? == some '#' then d
  else if !raw.contains '=' then d
  else
    let k := pyStrip (raw.takeWhile (fun c => !(c == '=')))
    let v := pyStrip ((raw.dropWhile (fun c => !(c == '='))).tail)
    if k.isEmpty then d else dinsert d k v

def parse_section_as_dict (lines : List Str) : Dict Str :=
  lines.foldl parse_line_into []

/-- `normalize_path`. -/
def normalize_path (p : Str) : Str :=
  let p1 := p.map (fun c => if c == '/' then '\\' else c)
  let p2 := pyStrip p1
  if p2.head? == some '"' && p2.getLast? == some '"' then p2
  else '"' :: (p2 ++ ['"'])

/-- Python string `<` (lexicographic on code points), for `sorted`. -/
def strLt : Str → Str → Bool
  | [], [] => false
  | [], _ :: _ => true
  | _ :: _, [] => false
  | a :: xs, b :: ys =>
    if a.toNat < b.toNat then true
    else if b.toNat < a.toNat then false
    else strLt xs ys

def insertSorted (x : Str) : List Str → List Str
  | [] => [x]
  | y :: ys => if strLt x y then x :: y :: ys else y :: insertSorted x ys

def sortKeys : List Str → List Str
  | [] => []
  | x :: xs => insertSorted x (sortKeys xs)

/-- `rebuild_section_text` (section fixed to `QRun`). -/
def rebuild_section_text (d : Dict Str) : Str :=
  ['[', 'Q', 'R', 'u', 'n', ']'] ++ CRLF ++
  concatAll ((sortKeys (dkeys d)).map (fun k => k ++ '=' :: ((dlookup d k).getD [] ++ CRLF)))

/-- The `lines[s+1:e]` slice of `upsert_entries_and_clean` (empty when the
section is missing). -/
def section_lines_of (text : Str) : List Str :=
  match (get_qrun_bounds text).2 with
  | none => []
  | some (s, e) => ((get_qrun_bounds text).1.drop (s + 1)).take (e - (s + 1))

/-- The deletion test of the clean-up loop: a key survives unless its group
is one of the written groups and it is not that group's retained key. -/
def keepPred (kg : Dict Str) (kv : Str × Str) : Bool :=
  match dlookup kg (key_group kv.1) with
  | none => true
  | some k1 => decide (kv.1 = k1)

/--
The section dictionary built by `upsert_entries_and_clean`: parse the
section, write every item (`d[k] = normalize_path(v)`), then delete every
key that shares a group with a written key without being that group's
retained key.  `keep_groups` is a dict comprehension over
`set(k for k, _ in items)`; CPython set iteration order is unspecified, so
the embedding iterates the written keys in list order (duplicates make the
later occurrence win, exactly as repeated dict-comprehension updates do).
-/
def upsert_final_dict (text : Str) (items : List (Str × Str)) : Dict Str :=
  let d0 := parse_section_as_dict (section_lines_of text)
  let d1 := items.foldl (fun d kv => dinsert d kv.1 (normalize_path kv.2)) d0
  let keepGroups := (items.map Prod.fst).foldl (fun acc k => dinsert acc (key_group k) k) []
  d1.filter (keepPred keepGroups)

/-- `upsert_entries_and_clean`: `"".join(pre + [new_section_text] + post)`. -/
def upsert_entries_and_clean (text : Str) (items : List (Str × Str)) : Str :=
  let lines := (get_qrun_bounds text).1
  (match (get_qrun_bounds text).2 with
   | none => concatAll lines
   | some se => concatAll (lines.take se.1)) ++
  rebuild_section_text (upsert_final_dict text items) ++
  (match (get_qrun_bounds text).2 with
   | none => []
   | some se => concatAll (lines.drop se.2))

-- ---------------------------------------------------------------------------
-- caps_qrun_helper.py : scan_executables
-- ---------------------------------------------------------------------------

def digitChar (d : Nat) : Char :=
  match d with
  | 0 => '0' | 1 => '1' | 2 => '2' | 3 => '3' | 4 => '4'
  | 5 => '5' | 6 => '6' | 7 => '7' | 8 => '8' | 9 => '9'
  | _ => '*'

/-- Decimal rendering with explicit fuel (structural recursion, so that the
definition evaluates by kernel reduction; `natToDec` supplies enough fuel). -/
def natToDecAux : Nat → Nat → Str
  | _, 0 => []
  | n, fuel + 1 =>
    if n < 10 then [digitChar n]
    else natToDecAux (n / 10) fuel ++ [digitChar (n % 10)]

/-- Decimal rendering of a natural number, as produced by an f-string. -/
def natToDec (n : Nat) : Str := natToDecAux n (n + 1)

/-- The candidate `f"{base}_{idx}"` tried by the collision loop. -/
def candKey (base : Str) (idx : Nat) : Str := base ++ '_' :: natToDec idx

/-- The `while key in used` loop of `scan_executables`, with explicit fuel
(the loop always terminates because the candidates are pairwise distinct
and `used` is finite; `freshKey` supplies sufficient fuel). -/
def freshLoop (base : Str) (used : List Str) : Str → Nat → Nat → Str
  | key, _, 0 => key
  | key, idx, fuel + 1 =>
    if key ∈ used then freshLoop base used (candKey base idx) (idx + 1) fuel
    else key

def freshKey (base : Str) (used : List Str) : Str :=
  freshLoop base used base 2 (used.length + 1)

/-- Index of the last `'.'` of a name, if any. -/
def lastDotIdx (n : Str) : Option Nat :=
  match n.reverse.findIdx? (fun c => c == '.') with
  | none => none
  | some j => some (n.length - 1 - j)

/-- `os.path.splitext` restricted to a bare file name (no separators): split
at the last dot provided some earlier character is not a dot. -/
def splitextSplit (n : Str) : Str × Str :=
  match lastDotIdx n with
  | none => (n, [])
  | some i =>
    if (n.take i).any (fun c => !(c == '.')) then (n.take i, n.drop i)
    else (n, [])

def joinPathW (r n : Str) : Str := r ++ '\\' :: n

/-- One file of the `scan_executables` walk: state is the `used` key set
(modelled as a list; only membership is used) and the result list. -/
def scanStep (nfkd : Char → List Char) (st : List Str × List (Str × Str × Str))
    (rn : Str × Str) : List Str × List (Str × Str × Str) :=
  let ext := lowerStr (splitextSplit rn.2).2
  if ext == ['.', 'e', 'x', 'e'] || ext == ['.', 'l', 'n', 'k'] then
    let raw_key := (splitextSplit rn.2).1
    let base := sanitize_key nfkd (some raw_key)
    let key := freshKey base st.1
    (key :: st.1, st.2 ++ [(key, joinPathW rn.1 rn.2, raw_key)])
  else st

/-- `scan_executables`: the `os.walk` output is abstracted as the flat list
of `(directory, file name)` pairs in walk order. -/
def scan_executables (nfkd : Char → List Char) (walkFiles : List (Str × Str)) :
    List (Str × Str × Str) :=
  (walkFiles.foldl (scanStep nfkd) ([], [])).2

-- ---------------------------------------------------------------------------
-- auto_sort_gui.py : rule classification
-- ---------------------------------------------------------------------------

/-- A compiled regex of a rule block: its source text (`pat.pattern`) and
its `search` function on a string (regex semantics abstracted). -/
structure CPattern where
  source : Str
  search : Str → Bool

structure RuleBlock where
  target_dir : Str
  patterns : List CPattern

/-- An entry of the scanned top-level directory: its `name` and whether it
is a directory. -/
structure Entry where
  name : Str
  isDir : Bool

/-- `pathlib.PurePath.suffix` of the entry name: `name[i:]` for the last dot
index `i` when `0 < i < len(name) - 1`, else empty. -/
def pathSuffix (name : Str) : Str :=
  match lastDotIdx name with
  | none => []
  | some i => if 0 < i && i + 1 < name.length then name.drop i else []

def INSTALL_EXT : List Str := [['.', 'e', 'x', 'e'], ['.', 'm', 's', 'i']]

def ARCHIVE_EXT : List Str := [['.', 'z', 'i', 'p'], ['.', '7', 'z'], ['.', 'r', 'a', 'r']]

def MISC : Str := ['9', '9', '_', 'm', 'i', 's', 'c']

/-- The nested `for blk / for pat` loops of `choose_target`: first block
whose pattern list contains a match, first matching pattern inside it. -/
def chooseTargetGo (nm : Str) : List RuleBlock → Option (Str × Str)
  | [] => none
  | blk :: rest =>
    match blk.patterns.find? (fun p => p.search nm) with
    | some pat =>
      some (blk.target_dir,
        ['m', 'a', 't', 'c', 'h', ':'] ++ blk.target_dir ++ ':' :: pat.source)
    | none => chooseTargetGo nm rest

/-- `choose_target`. -/
def choose_target (item : Entry) (blocks : List RuleBlock) : Str × Str :=
  let nm := lowerStr item.name
  match chooseTargetGo nm blocks with
  | some r => r
  | none =>
    let suffix := lowerStr (pathSuffix item.name)
    if INSTALL_EXT.contains suffix || ARCHIVE_EXT.contains suffix then
      (MISC, ['f', 'a', 'l', 'l', 'b', 'a', 'c', 'k', ':'] ++
        (if suffix.isEmpty then ['a', 'r', 'c', 'h', 'i', 'v', 'e'] else suffix))
    else if item.isDir then
      (MISC, ['f', 'a', 'l', 'l', 'b', 'a', 'c', 'k', ':', 'd', 'i', 'r'])
    else
      (MISC, ['f', 'a', 'l', 'l', 'b', 'a', 'c', 'k', ':', 'o', 't', 'h', 'e', 'r'])

-- ---------------------------------------------------------------------------
-- auto_sort_gui.py : the move worker
-- ---------------------------------------------------------------------------

/-- Filesystem state for the move executor: existing paths with an abstract
content tag (directories created by `mkdir` get tag `0`). -/
structure FS where
  entries : List (Str × Nat)

def fsLookup (fs : FS) (p : Str) : Option Nat := dlookup fs.entries p

def fsExists (fs : FS) (p : Str) : Bool := (fsLookup fs p).isSome

/-- `target_dir.mkdir(parents=True, exist_ok=True)` (parent chain left
abstract: only the target directory entry matters to the claims). -/
def mkdirP (fs : FS) (d : Str) : FS :=
  if fsExists fs d then fs else ⟨(d, 0) :: fs.entries⟩

/-- `shutil.move(src, dest)` when `dest` does not exist: the entry moves. -/
def fsMove (fs : FS) (src dest : Str) : FS :=
  match fsLookup fs src with
  | some c => ⟨(dest, c) :: fs.entries.filter (fun kv => !(decide (kv.1 = src)))⟩
  | none => fs

/-- Status written to the table by `_worker_move` for one item
(`已在目标` / `已存在` / `已移动`). -/
inductive MoveStatus where
  | inTarget
  | existsSkip
  | moved
deriving DecidableEq

/-- One iteration of the `_worker_move` loop (the `except` arm is OS-level
failure of `mkdir`/`move`, which the filesystem model leaves out): the item
is `src = srcParent/srcName`, planned target category `target` under
`rootDir`. -/
def moveStep (fs : FS) (rootDir target srcParent srcName : Str) : FS × MoveStatus :=
  let targetDir := joinPathW rootDir target
  let dest := joinPathW targetDir srcName
  if srcParent = targetDir then (fs, .inTarget)
  else
    let fs1 := mkdirP fs targetDir
    if fsExists fs1 dest then (fs1, .existsSkip)
    else (fsMove fs1 (joinPathW srcParent srcName) dest, .moved)

-- ---------------------------------------------------------------------------
-- rclone_mount_gui.py : readiness poll and configuration
-- ---------------------------------------------------------------------------

/-- The `for _ in range(15)` readiness loop of `wait_ready` inside
`mount_bg`, over an abstract readiness trace indexed by poll number
(`time.sleep(1)` separates consecutive polls).  Returns the number of
checks performed and whether the drive became ready. -/
def waitLoop (ready : Nat → Bool) : Nat → Nat → Nat × Bool
  | t, 0 => (t, false)
  | t, fuel + 1 =>
    if ready t then (t + 1, true)
    else waitLoop ready (t + 1) fuel

def wait_ready (ready : Nat → Bool) : Nat × Bool := waitLoop ready 0 15

/-- JSON values appearing in the mount configuration. -/
inductive JVal where
  | jstr : Str → JVal
  | jbool : Bool → JVal
deriving DecidableEq

/-- The `DEFAULTS` dict of `rclone_mount_gui.py`. -/
def DEFAULTS : Dict JVal :=
  [("rclone_path".data, .jstr []),
   ("remote".data, .jstr "alist:".data),
   ("drive".data, .jstr "W:".data),
   ("vfs_writes".data, .jbool true),
   ("links".data, .jbool true),
   ("network_mode".data, .jbool false),
   ("volname".data, .jstr "AList".data),
   ("webdav_url".data, .jstr "https://sdumba.cn:5243/dav".data),
   ("webdav_user".data, .jstr "admin".data),
   ("webdav_pass".data, .jstr []),
   ("vfs_cache_mode".data, .jstr "full".data),
   ("dir_cache_time".data, .jstr "30s".data),
   ("poll_interval".data, .jstr "15s".data),
   ("vfs_cache_max_age".data, .jstr "30m".data),
   ("attr_timeout".data, .jstr "10s".data),
   ("cache_dir".data, .jstr "C:\\rclone-cache".data)]

/-- `save_cfg` writes `json.dump(cfg)` to the config file; the stored file
is modelled by the parsed dict itself (JSON serialisation of a flat dict of
strings and booleans round-trips). -/
def save_cfg (cfg : Dict JVal) : Option (Dict JVal) := some cfg

/-- `load_cfg`: defaults when the file is missing, otherwise
`out = DEFAULTS.copy(); out.update(data)`. -/
def load_cfg (store : Option (Dict JVal)) : Dict JVal :=
  match store with
  | some data => dictUpdate DEFAULTS data
  | none => DEFAULTS

-- ---------------------------------------------------------------------------
-- Association-list (Python dict) lemmas
-- ---------------------------------------------------------------------------

@[simp] theorem dkeys_nil {α : Type} : dkeys ([] : Dict α) = [] := rfl

@[simp] theorem dkeys_cons {α : Type} (kv : Str × α) (rest : Dict α) :
    dkeys (kv :: rest) = kv.1 :: dkeys rest := rfl

theorem dmem_iff {α : Type} {k : Str} : ∀ {d : Dict α}, dmem k d = true ↔ k ∈ dkeys d := by
  intro d
  induction d with
  | nil => simp [dmem]
  | cons kv rest ih =>
    obtain ⟨k2, v2⟩ := kv
    by_cases h : k2 = k
    · subst h; simp [dmem]
    · have h2 : ¬(k = k2) := fun hh => h hh.symm
      simp [dmem, h, h2, ih]

theorem dlookup_eq_none {α : Type} : ∀ {d : Dict α} {k : Str},
    dlookup d k = none ↔ k ∉ dkeys d := by
  intro d k
  induction d with
  | nil => simp [dlookup]
  | cons kv rest ih =>
    obtain ⟨k2, v2⟩ := kv
    by_cases h : k = k2
    · subst h; simp [dlookup]
    · have h2 : ¬(k2 = k) := fun hh => h hh.symm
      simp [dlookup, h, h2, ih]

theorem dlookup_replace_self {α : Type} (v : α) :
    ∀ (d : Dict α) (k : Str), k ∈ dkeys d →
      dlookup (dreplace d k v) k = some v := by
  intro d
  induction d with
  | nil => intro k hk; simp at hk
  | cons kv rest ih =>
    intro k hk
    obtain ⟨k2, v2⟩ := kv
    by_cases h : k2 = k
    · subst h; simp [dreplace, dlookup]
    · have hne : ¬(k = k2) := fun hh => h hh.symm
      have hk2 : k ∈ dkeys rest := by
        simp at hk
        rcases hk with h1 | h1
        · exact absurd h1.symm h
        · exact h1
      simp [dreplace, dlookup, h, hne]
      exact ih k hk2

theorem dlookup_replace_ne {α : Type} (v : α) :
    ∀ (d : Dict α) (k k' : Str), k' ≠ k →
      dlookup (dreplace d k v) k' = dlookup d k' := by
  intro d
  induction d with
  | nil => intro k k' _; simp [dreplace]
  | cons kv rest ih =>
    intro k k' hne
    obtain ⟨k2, v2⟩ := kv
    by_cases h : k2 = k
    · subst h
      have hne2 : ¬(k' = k2) := hne
      simp [dreplace, dlookup, hne2]
      exact ih k2 k' hne
    · by_cases h2 : k' = k2
      · subst h2; simp [dreplace, dlookup, h]
      · simp [dreplace, dlookup, h, h2]
        exact ih k k' hne

theorem dlookup_append_self {α : Type} (v : α) :
    ∀ (d : Dict α) (k : Str), k ∉ dkeys d →
      dlookup (d ++ [(k, v)]) k = some v := by
  intro d
  induction d with
  | nil => intro k _; simp [dlookup]
  | cons kv rest ih =>
    intro k hk
    obtain ⟨k2, v2⟩ := kv
    have h1 : ¬(k = k2) := by
      intro h; apply hk; simp [h]
    have h2 : k ∉ dkeys rest := by
      intro h; apply hk; simp; right; exact h
    simp [dlookup, h1]
    exact ih k h2

theorem dlookup_append_ne {α : Type} (v : α) :
    ∀ (d : Dict α) (k k' : Str), k' ≠ k →
      dlookup (d ++ [(k, v)]) k' = dlookup d k' := by
  intro d
  induction d with
  | nil => intro k k' hne; simp [dlookup, hne]
  | cons kv rest ih =>
    intro k k' hne
    obtain ⟨k2, v2⟩ := kv
    by_cases h : k' = k2
    · subst h; simp [dlookup]
    · simp [dlookup, h]
      exact ih k k' hne

/-- The fundamental lookup/insert interaction. -/
theorem dlookup_dinsert {α : Type} (d : Dict α) (k : Str) (v : α) (k' : Str) :
    dlookup (dinsert d k v) k' = if k' = k then some v else dlookup d k' := by
  by_cases hm : dmem k d
  · by_cases he : k' = k
    · subst he
      simp [dinsert, hm, dlookup_replace_self v d k' (dmem_iff.mp hm)]
    · simp [dinsert, hm, he, dlookup_replace_ne v d k k' he]
  · by_cases he : k' = k
    · subst he
      have hnk : k' ∉ dkeys d := fun h => hm (dmem_iff.mpr h)
      simp [dinsert, hm, dlookup_append_self v d k' hnk]
    · simp [dinsert, hm, he, dlookup_append_ne v d k k' he]

theorem dkeys_append {α : Type} (d e : Dict α) : dkeys (d ++ e) = dkeys d ++ dkeys e := by
  simp [dkeys]

theorem dkeys_replace {α : Type} (v : α) : ∀ (d : Dict α) (k : Str),
    dkeys (dreplace d k v) = dkeys d := by
  intro d
  induction d with
  | nil => intro k; rfl
  | cons kv rest ih =>
    intro k
    obtain ⟨k2, v2⟩ := kv
    by_cases h : k2 = k <;> simp [dreplace, h] <;> exact ih k

theorem dkeys_dinsert {α : Type} (d : Dict α) (k : Str) (v : α) :
    dkeys (dinsert d k v) = if k ∈ dkeys d then dkeys d else dkeys d ++ [k] := by
  by_cases hm : dmem k d
  · simp [dinsert, hm, dkeys_replace, dmem_iff.mp hm]
  · have hnk : k ∉ dkeys d := fun h => hm (dmem_iff.mpr h)
    simp [dinsert, hm, hnk, dkeys_append]

theorem mem_dkeys_dinsert_self {α : Type} (d : Dict α) (k : Str) (v : α) :
    k ∈ dkeys (dinsert d k v) := by
  rw [dkeys_dinsert]
  by_cases h : k ∈ dkeys d <;> simp [h]

theorem mem_dkeys_dinsert_mono {α : Type} {d : Dict α} {k' : Str} (k : Str) (v : α)
    (h : k' ∈ dkeys d) : k' ∈ dkeys (dinsert d k v) := by
  rw [dkeys_dinsert]
  by_cases hm : k ∈ dkeys d <;> simp [hm, h]

theorem dkeys_dinsert_nodup {α : Type} {d : Dict α} (k : Str) (v : α)
    (h : (dkeys d).Nodup) : (dkeys (dinsert d k v)).Nodup := by
  rw [dkeys_dinsert]
  by_cases hm : k ∈ dkeys d
  · simpa [hm] using h
  · simp [hm]
    exact List.Nodup.append h (List.nodup_singleton k) (by simpa using hm)

-- ---------------------------------------------------------------------------
-- C8 : classification is deterministic
-- ---------------------------------------------------------------------------

/-- C8: classification is deterministic: two runs of `choose_target` on the
same entry name, directory flag and rule blocks return the same category
(and reason). -/
theorem c8_choose_target_deterministic (item1 item2 : Entry)
    (blocks1 blocks2 : List RuleBlock)
    (hn : item1.name = item2.name) (hd : item1.isDir = item2.isDir)
    (hb : blocks1 = blocks2) :
    choose_target item1 blocks1 = choose_target item2 blocks2 := by
  cases item1; cases item2
  cases hn; cases hd; cases hb
  rfl

/-- Witness for C8 at a concrete entry and rule list. -/
theorem c8_witness :
    choose_target ⟨['a'], false⟩ [] = choose_target ⟨['a'], false⟩ [] :=
  c8_choose_target_deterministic ⟨['a'], false⟩ ⟨['a'], false⟩ [] [] rfl rfl rfl

-- ---------------------------------------------------------------------------
-- C6 : the readiness poll is bounded
-- ---------------------------------------------------------------------------

theorem waitLoop_checks_le (ready : Nat → Bool) :
    ∀ fuel t, (waitLoop ready t fuel).1 ≤ t + fuel := by
  intro fuel
  induction fuel with
  | zero => intro t; simp [waitLoop]
  | succ n ih =>
    intro t
    cases h : ready t with
    | true => simp only [waitLoop, h, if_true]; omega
    | false =>
      simp only [waitLoop, h, Bool.false_eq_true, if_false]
      have := ih (t + 1)
      omega

theorem waitLoop_success_iff (ready : Nat → Bool) :
    ∀ fuel t, (waitLoop ready t fuel).2 = true ↔ ∃ j, j < fuel ∧ ready (t + j) = true := by
  intro fuel
  induction fuel with
  | zero => intro t; simp [waitLoop]
  | succ n ih =>
    intro t
    cases h : ready t with
    | true =>
      simp only [waitLoop, h, if_true]
      constructor
      · intro _; exact ⟨0, by omega, by simpa using h⟩
      · intro _; trivial
    | false =>
      simp only [waitLoop, h, Bool.false_eq_true, if_false]
      rw [ih (t + 1)]
      constructor
      · rintro ⟨j, hj, hr⟩
        exact ⟨j + 1, by omega, by simpa [Nat.add_assoc, Nat.add_comm 1 j] using hr⟩
      · rintro ⟨j, hj, hr⟩
        match j with
        | 0 =>
          simp at hr
          rw [hr] at h
          exact absurd h (by simp)
        | j' + 1 =>
          exact ⟨j', by omega, by simpa [Nat.add_assoc, Nat.add_comm 1 j'] using hr⟩

theorem waitLoop_early (ready : Nat → Bool) :
    ∀ fuel t j, j < fuel → ready (t + j) = true → (waitLoop ready t fuel).1 ≤ t + j + 1 := by
  intro fuel
  induction fuel with
  | zero => intro t j hj; omega
  | succ n ih =>
    intro t j hj hr
    cases h : ready t with
    | true => simp only [waitLoop, h, if_true]; omega
    | false =>
      simp only [waitLoop, h, Bool.false_eq_true, if_false]
      match j with
      | 0 =>
        simp at hr
        rw [hr] at h
        exact absurd h (by simp)
      | j' + 1 =>
        have := ih (t + 1) j' (by omega) (by simpa [Nat.add_assoc, Nat.add_comm 1 j'] using hr)
        omega

/-- C6: after launching the mount, the readiness loop performs at most 15
checks of the drive letter, succeeds exactly when the drive becomes ready at
one of those checks, and stops right after the first ready check; there is
no retry beyond the fixed count. -/
theorem c6_wait_ready_bounded (ready : Nat → Bool) :
    (wait_ready ready).1 ≤ 15 ∧
    ((wait_ready ready).2 = true ↔ ∃ t, t < 15 ∧ ready t = true) ∧
    (∀ t, t < 15 → ready t = true → (wait_ready ready).1 ≤ t + 1) := by
  refine ⟨?_, ?_, ?_⟩
  · simpa using waitLoop_checks_le ready 15 0
  · simpa using waitLoop_success_iff ready 15 0
  · intro t ht hr
    simpa using waitLoop_early ready 15 0 t ht (by simpa using hr)

/-- Witness for C6: with readiness arriving at the third poll, the loop
stops after three checks. -/
theorem c6_witness : (wait_ready (fun t => t == 2)).1 ≤ 3 :=
  (c6_wait_ready_bounded (fun t => t == 2)).2.2 2 (by decide) (by decide)

-- ---------------------------------------------------------------------------
-- C5 : the move executor never overwrites an existing destination
-- ---------------------------------------------------------------------------

/-- C5: if the destination entry of a planned move already exists, the move
step leaves that entry untouched and its status is a skip, never a move. -/
theorem c5_no_overwrite (fs : FS) (rootDir target srcParent srcName : Str) (c : Nat)
    (h : fsLookup fs (joinPathW (joinPathW rootDir target) srcName) = some c) :
    fsLookup (moveStep fs rootDir target srcParent srcName).1
        (joinPathW (joinPathW rootDir target) srcName) = some c ∧
    (moveStep fs rootDir target srcParent srcName).2 ≠ MoveStatus.moved := by
  unfold moveStep
  by_cases h1 : srcParent = joinPathW rootDir target
  · simp [h1, h]
  · simp only [if_neg h1]
    have hdest : fsLookup (mkdirP fs (joinPathW rootDir target))
        (joinPathW (joinPathW rootDir target) srcName) = some c := by
      unfold mkdirP
      by_cases h2 : fsExists fs (joinPathW rootDir target)
      · simp [h2, h]
      · simp only [h2, Bool.false_eq_true, if_neg]
        have hne : joinPathW (joinPathW rootDir target) srcName ≠ joinPathW rootDir target := by
          intro he
          apply h2
          unfold fsExists
          rw [← he, h]
          rfl
        simp [fsLookup, dlookup, hne, h]
        exact h
    have hex : fsExists (mkdirP fs (joinPathW rootDir target))
        (joinPathW (joinPathW rootDir target) srcName) = true := by
      unfold fsExists
      rw [hdest]; rfl
    simp [hex, hdest]

/-- Witness for C5: a concrete filesystem where the destination exists. -/
theorem c5_witness :
    fsLookup (moveStep ⟨[(joinPathW (joinPathW ['r'] ['t']) ['n'], 5)]⟩
        ['r'] ['t'] ['s'] ['n']).1 (joinPathW (joinPathW ['r'] ['t']) ['n']) = some 5 ∧
    (moveStep ⟨[(joinPathW (joinPathW ['r'] ['t']) ['n'], 5)]⟩
        ['r'] ['t'] ['s'] ['n']).2 ≠ MoveStatus.moved :=
  c5_no_overwrite ⟨[(joinPathW (joinPathW ['r'] ['t']) ['n'], 5)]⟩
    ['r'] ['t'] ['s'] ['n'] 5 (by decide)

-- ---------------------------------------------------------------------------
-- C4 : first-match-wins classification with fallback
-- ---------------------------------------------------------------------------

theorem chooseTargetGo_none (nm : Str) : ∀ blocks : List RuleBlock,
    chooseTargetGo nm blocks = none ↔
      ∀ blk ∈ blocks, ∀ p ∈ blk.patterns, p.search nm = false := by
  intro blocks
  induction blocks with
  | nil => simp [chooseTargetGo]
  | cons b rest ih =>
    cases hf : b.patterns.find? (fun p => p.search nm) with
    | some pat =>
      simp only [chooseTargetGo, hf]
      constructor
      · intro h; exact absurd h (by simp)
      · intro h
        have hmem := List.mem_of_find?_eq_some hf
        have hsearch := List.find?_some hf
        have := h b (by simp) pat hmem
        rw [this] at hsearch
        exact absurd hsearch (by simp)
    | none =>
      simp only [chooseTargetGo, hf]
      rw [ih]
      have hnone := List.find?_eq_none.mp hf
      constructor
      · intro h blk hblk p hp
        rcases List.mem_cons.mp hblk with h1 | h1
        · subst h1
          simpa using hnone p hp
        · exact h blk h1 p hp
      · intro h blk hblk p hp
        exact h blk (List.mem_cons_of_mem b hblk) p hp

theorem chooseTargetGo_first (nm : Str) : ∀ (blocks : List RuleBlock) (blk : RuleBlock),
    blocks.find? (fun b => b.patterns.any (fun p => p.search nm)) = some blk →
    ∃ r, chooseTargetGo nm blocks = some r ∧ r.1 = blk.target_dir := by
  intro blocks
  induction blocks with
  | nil => intro blk h; simp at h
  | cons b rest ih =>
    intro blk h
    cases hany : b.patterns.any (fun p => p.search nm) with
    | true =>
      have hb : blk = b := by
        simp only [List.find?, hany] at h
        exact (Option.some_inj.mp h).symm
      subst hb
      cases hf : blk.patterns.find? (fun p => p.search nm) with
      | some pat =>
        refine ⟨(blk.target_dir,
          ['m', 'a', 't', 'c', 'h', ':'] ++ blk.target_dir ++ ':' :: pat.source), ?_, rfl⟩
        simp only [chooseTargetGo, hf]
      | none =>
        obtain ⟨p, hp, hs⟩ := List.any_eq_true.mp hany
        have := List.find?_eq_none.mp hf p hp
        rw [hs] at this
        exact absurd rfl this
    | false =>
      simp only [List.find?, hany] at h
      cases hf : b.patterns.find? (fun p => p.search nm) with
      | some pat =>
        have hmem := List.mem_of_find?_eq_some hf
        have hsearch := List.find?_some hf
        have : b.patterns.any (fun p => p.search nm) = true :=
          List.any_eq_true.mpr ⟨pat, hmem, hsearch⟩
        rw [hany] at this
        exact absurd this (by simp)
      | none =>
        obtain ⟨r, hr, hr1⟩ := ih blk h
        exact ⟨r, by simp only [chooseTargetGo, hf]; exact hr, hr1⟩

/-- C4: `choose_target` is first-match-wins over the ordered rule blocks:
if some block's pattern matches the lowercased entry name, the result is the
target of the first such block; if no pattern of any block matches, the
result is the fallback category `99_misc` (reached via the
installer/archive-extension test, the directory test or the final arm). -/
theorem c4_first_match_wins (item : Entry) (blocks : List RuleBlock) :
    (∀ blk : RuleBlock,
        blocks.find? (fun b => b.patterns.any (fun p => p.search (lowerStr item.name)))
          = some blk →
        (choose_target item blocks).1 = blk.target_dir) ∧
    ((∀ blk ∈ blocks, ∀ p ∈ blk.patterns, p.search (lowerStr item.name) = false) →
        (choose_target item blocks).1 = MISC) := by
  constructor
  · intro blk h
    obtain ⟨r, hgo, hr1⟩ := chooseTargetGo_first (lowerStr item.name) blocks blk h
    simp only [choose_target]
    rw [hgo]
    exact hr1
  · intro hall
    have hgo := (chooseTargetGo_none (lowerStr item.name) blocks).mpr hall
    simp only [choose_target, hgo]
    split
    · rfl
    · split <;> rfl

/-- Witness for C4: a one-block rule list whose pattern matches the
lowercased name, and an entry falling through to the extension fallback. -/
theorem c4_witness :
    (choose_target ⟨['X'], false⟩
        [⟨"02_dev".data, [⟨['p'], fun s => decide (s = ['x'])⟩]⟩]).1 = "02_dev".data ∧
    (choose_target ⟨"a.zip".data, false⟩
        [⟨"02_dev".data, [⟨['p'], fun _ => false⟩]⟩]).1 = MISC :=
  ⟨(c4_first_match_wins ⟨['X'], false⟩
      [⟨"02_dev".data, [⟨['p'], fun s => decide (s = ['x'])⟩]⟩]).1
      ⟨"02_dev".data, [⟨['p'], fun s => decide (s = ['x'])⟩]⟩ (by rfl),
   (c4_first_match_wins ⟨"a.zip".data, false⟩
      [⟨"02_dev".data, [⟨['p'], fun _ => false⟩]⟩]).2 (by
      intro blk hblk p hp
      simp at hblk
      subst hblk
      simp at hp
      subst hp
      rfl)⟩

-- ---------------------------------------------------------------------------
-- C7 : configuration round-trip
-- ---------------------------------------------------------------------------

theorem dlookup_dictUpdate {α : Type} : ∀ (e d : Dict α), (dkeys e).Nodup → ∀ k,
    dlookup (dictUpdate d e) k =
      match dlookup e k with
      | some v => some v
      | none => dlookup d k := by
  intro e
  induction e with
  | nil => intro d _ k; simp [dictUpdate, dlookup]
  | cons kv rest ih =>
    intro d hnd k
    obtain ⟨k1, v1⟩ := kv
    rw [dkeys_cons, List.nodup_cons] at hnd
    have hstep : dictUpdate d ((k1, v1) :: rest) = dictUpdate (dinsert d k1 v1) rest := rfl
    rw [hstep, ih (dinsert d k1 v1) hnd.2 k]
    by_cases he : k = k1
    · subst he
      have h1 : dlookup rest k = none := dlookup_eq_none.mpr hnd.1
      rw [h1]
      simp [dlookup, dlookup_dinsert]
    · have h2 : ¬(k1 = k) := fun hh => he hh.symm
      cases hrest : dlookup rest k with
      | some v => simp [dlookup, he, hrest]
      | none => simp [dlookup, he, hrest, dlookup_dinsert]

/-- C7: for a configuration dict with pairwise distinct keys covering all
default keys, loading right after saving returns exactly that configuration
(as a key-value mapping), and loading with no stored file returns the
defaults. -/
theorem c7_cfg_roundtrip (c : Dict JVal)
    (hnd : (dkeys c).Nodup)
    (hkeys : ∀ k ∈ dkeys DEFAULTS, k ∈ dkeys c) :
    (∀ k, dlookup (load_cfg (save_cfg c)) k = dlookup c k) ∧ load_cfg none = DEFAULTS := by
  constructor
  · intro k
    show dlookup (dictUpdate DEFAULTS c) k = dlookup c k
    rw [dlookup_dictUpdate c DEFAULTS hnd k]
    cases hc : dlookup c k with
    | some v => rfl
    | none =>
      have h1 : k ∉ dkeys c := dlookup_eq_none.mp hc
      have h2 : k ∉ dkeys DEFAULTS := fun h => h1 (hkeys k h)
      exact dlookup_eq_none.mpr h2
  · rfl

/-- Witness for C7: the defaults themselves round-trip. -/
theorem c7_witness :
    dlookup (load_cfg (save_cfg DEFAULTS)) ("drive".data) = dlookup DEFAULTS ("drive".data) :=
  (c7_cfg_roundtrip DEFAULTS (by decide) (fun _ hk => hk)).1 ("drive".data)

-- ---------------------------------------------------------------------------
-- C2 / C3 : sanitize_key is total and idempotent
-- ---------------------------------------------------------------------------

theorem wordCh_ascii {c : Char} (h : isWordCh c = true) : c.toNat < 128 := by
  simp only [isWordCh, isLetterCh, isUpperCh, isLowerCh, isDigitCh, Bool.or_eq_true,
    Bool.and_eq_true, decide_eq_true_eq, beq_iff_eq] at h
  rcases h with ((⟨h1, h2⟩ | ⟨h1, h2⟩) | ⟨h1, h2⟩) | h
  · omega
  · omega
  · omega
  · subst h; decide

theorem map_word_id : ∀ s : Str, s.all isWordCh = true →
    s.map (fun c => if isWordCh c then c else '_') = s := by
  intro s
  induction s with
  | nil => intro _; rfl
  | cons c t ih =>
    intro h
    rw [List.all_cons, Bool.and_eq_true] at h
    rw [List.map_cons, if_pos h.1, ih h.2]

theorem map_word_all : ∀ s : Str,
    (s.map (fun c => if isWordCh c then c else '_')).all isWordCh = true := by
  intro s
  induction s with
  | nil => rfl
  | cons c t ih =>
    rw [List.map_cons, List.all_cons, Bool.and_eq_true]
    refine ⟨?_, ih⟩
    by_cases hw : isWordCh c
    · rw [if_pos hw]; exact hw
    · rw [if_neg hw]; decide

theorem flatten_fix {nfkd : Char → List Char}
    (hfix : ∀ c : Char, c.toNat < 128 → nfkd c = [c]) :
    ∀ s : Str, s.all (fun c => decide (c.toNat < 128)) = true → (s.map nfkd).flatten = s := by
  intro s
  induction s with
  | nil => intro _; rfl
  | cons c t ih =>
    intro h
    rw [List.all_cons, Bool.and_eq_true] at h
    obtain ⟨h1, h2⟩ := h
    rw [decide_eq_true_eq] at h1
    rw [List.map_cons, List.flatten_cons, hfix c h1, ih h2]
    rfl

theorem collapse_all {p : Char → Bool} : ∀ s : Str,
    s.all p = true → (collapseUS s).all p = true := by
  intro s
  induction s with
  | nil => intro h; exact h
  | cons c t ih =>
    intro h
    rw [List.all_cons, Bool.and_eq_true] at h
    by_cases hc : c = '_' ∧ t.head? = some '_'
    · simp only [collapseUS, if_pos hc]
      exact ih h.2
    · simp only [collapseUS, if_neg hc]
      rw [List.all_cons, Bool.and_eq_true]
      exact ⟨h.1, ih h.2⟩

theorem collapse_head : ∀ (s : Str), s.head? ≠ some '_' →
    (collapseUS s).head? = s.head? := by
  intro s h
  cases s with
  | nil => rfl
  | cons c t =>
    have hc : ¬(c = '_' ∧ t.head? = some '_') := by
      rintro ⟨h1, _⟩
      exact h (by rw [List.head?_cons, h1])
    simp only [collapseUS, if_neg hc, List.head?_cons]

theorem noDouble_tail : ∀ {c : Char} {l : Str},
    noDoubleUS (c :: l) = true → noDoubleUS l = true := by
  intro c l h
  cases l with
  | nil => rfl
  | cons d t =>
    simp only [noDoubleUS, Bool.and_eq_true] at h
    exact h.2

theorem noDouble_cons : ∀ {c : Char} {l : Str}, noDoubleUS l = true →
    ¬(c = '_' ∧ l.head? = some '_') → noDoubleUS (c :: l) = true := by
  intro c l hl hc
  cases l with
  | nil => rfl
  | cons d t =>
    simp only [noDoubleUS, Bool.and_eq_true]
    refine ⟨?_, hl⟩
    by_cases h1 : c = '_'
    · have h2 : ¬(d = '_') := fun hd => hc ⟨h1, by rw [List.head?_cons, hd]⟩
      simp [h1, h2]
    · simp [h1]

theorem collapse_noDouble : ∀ s : Str, noDoubleUS (collapseUS s) = true := by
  intro s
  induction s with
  | nil => rfl
  | cons c t ih =>
    by_cases hc : c = '_' ∧ t.head? = some '_'
    · simp only [collapseUS, if_pos hc]; exact ih
    · simp only [collapseUS, if_neg hc]
      apply noDouble_cons ih
      rintro ⟨h1, h2⟩
      apply hc
      refine ⟨h1, ?_⟩
      by_cases ht : t.head? = some '_'
      · exact ht
      · rw [collapse_head t ht] at h2
        exact absurd h2 ht

theorem collapse_id : ∀ s : Str, noDoubleUS s = true → collapseUS s = s := by
  intro s
  induction s with
  | nil => intro _; rfl
  | cons c t ih =>
    intro h
    have ht := noDouble_tail h
    have hc : ¬(c = '_' ∧ t.head? = some '_') := by
      rintro ⟨h1, h2⟩
      cases t with
      | nil => simp at h2
      | cons d t2 =>
        rw [List.head?_cons] at h2
        have hd : d = '_' := Option.some_inj.mp h2
        simp only [noDoubleUS, Bool.and_eq_true] at h
        rcases h with ⟨hne, _⟩
        simp [h1, hd] at hne
    simp only [collapseUS, if_neg hc, ih ht]

theorem dropWhile_head_not {p : Char → Bool} : ∀ (s : Str) {c : Char},
    (s.dropWhile p).head? = some c → p c = false := by
  intro s
  induction s with
  | nil => intro c h; simp [List.dropWhile] at h
  | cons d t ih =>
    intro c h
    cases hd : p d with
    | true =>
      rw [List.dropWhile_cons, if_pos hd] at h
      exact ih h
    | false =>
      rw [List.dropWhile_cons, if_neg (by simp [hd])] at h
      rw [List.head?_cons] at h
      have hdc : d = c := Option.some_inj.mp h
      rw [← hdc]
      exact hd

theorem dropWhile_decomp {p : Char → Bool} : ∀ s : Str, ∃ t, s = t ++ s.dropWhile p := by
  intro s
  induction s with
  | nil => exact ⟨[], rfl⟩
  | cons d t ih =>
    cases hd : p d with
    | true =>
      obtain ⟨u, hu⟩ := ih
      rw [List.dropWhile_cons, if_pos hd]
      exact ⟨d :: u, by rw [List.cons_append, ← hu]⟩
    | false =>
      rw [List.dropWhile_cons, if_neg (by simp [hd])]
      exact ⟨[], rfl⟩

theorem dropLeadUS_decomp (s : Str) : ∃ t, s = t ++ dropLeadUS s :=
  dropWhile_decomp s

theorem dropTrailUS_decomp (x : Str) : ∃ r, x = dropTrailUS x ++ r := by
  obtain ⟨t, ht⟩ := dropWhile_decomp (p := fun c => c == '_') x.reverse
  refine ⟨t.reverse, ?_⟩
  rw [dropTrailUS]
  calc x = x.reverse.reverse := (List.reverse_reverse x).symm
  _ = (t ++ x.reverse.dropWhile (fun c => c == '_')).reverse := by rw [← ht]
  _ = (x.reverse.dropWhile (fun c => c == '_')).reverse ++ t.reverse := by
      rw [List.reverse_append]

theorem dropTrail_head {x : Str} {c : Char} (h : (dropTrailUS x).head? = some c) :
    x.head? = some c := by
  obtain ⟨r, hr⟩ := dropTrailUS_decomp x
  rw [hr, List.head?_append, h]
  rfl

theorem dropTrail_getLast {x : Str} {c : Char} (h : (dropTrailUS x).getLast? = some c) :
    (c == '_') = false := by
  rw [dropTrailUS, List.getLast?_reverse] at h
  exact dropWhile_head_not (p := fun c => c == '_') x.reverse h

theorem stripUS_all {q : Char → Bool} {s : Str} (h : s.all q = true) :
    (stripUS s).all q = true := by
  obtain ⟨t, ht⟩ := dropLeadUS_decomp s
  have h1 : (dropLeadUS s).all q = true := by
    rw [ht, List.all_append, Bool.and_eq_true] at h
    exact h.2
  obtain ⟨r, hr⟩ := dropTrailUS_decomp (dropLeadUS s)
  rw [hr, List.all_append, Bool.and_eq_true] at h1
  exact h1.1

theorem noDouble_append_left : ∀ (u v : Str), noDoubleUS (u ++ v) = true →
    noDoubleUS v = true := by
  intro u
  induction u with
  | nil => intro v h; exact h
  | cons a u' ih => intro v h; exact ih v (noDouble_tail h)

theorem noDouble_append_right : ∀ (u v : Str), noDoubleUS (u ++ v) = true →
    noDoubleUS u = true := by
  intro u
  induction u with
  | nil => intro v _; rfl
  | cons a u' ih =>
    intro v h
    cases u' with
    | nil => rfl
    | cons b u'' =>
      simp only [List.cons_append] at h
      simp only [noDoubleUS, Bool.and_eq_true] at h ⊢
      exact ⟨h.1, ih v h.2⟩

theorem stripUS_noDouble {s : Str} (h : noDoubleUS s = true) :
    noDoubleUS (stripUS s) = true := by
  obtain ⟨t, ht⟩ := dropLeadUS_decomp s
  have h1 : noDoubleUS (dropLeadUS s) = true := noDouble_append_left t _ (ht ▸ h)
  obtain ⟨r, hr⟩ := dropTrailUS_decomp (dropLeadUS s)
  exact noDouble_append_right _ r (hr ▸ h1)

theorem stripUS_head {s : Str} {c : Char} (h : (stripUS s).head? = some c) : ¬(c = '_') := by
  have h2 : (dropLeadUS s).head? = some c := dropTrail_head h
  have h3 := dropWhile_head_not (p := fun c => c == '_') s h2
  simpa using h3

theorem stripUS_last {s : Str} {c : Char} (h : (stripUS s).getLast? = some c) : ¬(c = '_') := by
  have h3 := dropTrail_getLast (x := dropLeadUS s) h
  simpa using h3

theorem noDouble_app_head {c : Char} {t : Str} (hc : ¬(c = '_'))
    (h : noDoubleUS (c :: t) = true) :
    noDoubleUS (['A', 'P', 'P', '_'] ++ c :: t) = true := by
  show noDoubleUS ('A' :: 'P' :: 'P' :: '_' :: c :: t) = true
  simp only [noDoubleUS, Bool.and_eq_true] at h ⊢
  refine ⟨by decide, by decide, by decide, by simp [hc], ?_⟩
  cases t with
  | nil => rfl
  | cons d t2 =>
    simp only [noDoubleUS, Bool.and_eq_true] at h
    simp only [noDoubleUS, Bool.and_eq_true]
    exact h

/-- Facts established by the `APP` fix-up step for any canonical input. -/
theorem sanitizeFinish_canonical {safe : Str}
    (hall : safe.all isWordCh = true)
    (hnd : noDoubleUS safe = true)
    (hhead : ∀ c, safe.head? = some c → ¬(c = '_'))
    (hlast : ∀ c, safe.getLast? = some c → ¬(c = '_')) :
    sanitizeFinish safe ≠ [] ∧
    (sanitizeFinish safe).all isWordCh = true ∧
    noDoubleUS (sanitizeFinish safe) = true ∧
    (∀ c, (sanitizeFinish safe).head? = some c → isLetterCh c = true) ∧
    (∀ c, (sanitizeFinish safe).getLast? = some c → ¬(c = '_')) := by
  by_cases h0 : safe = []
  · rw [sanitizeFinish, dif_pos h0]
    refine ⟨by decide, by decide, by decide, ?_, ?_⟩
    · intro c h
      have : c = 'A' := (Option.some_inj.mp h).symm
      subst this; decide
    · intro c h
      have : c = 'P' := by
        have := h
        simp [List.getLast?] at this
        exact this.symm
      subst this; decide
  · obtain ⟨c, t, hct⟩ := List.exists_cons_of_ne_nil h0
    subst hct
    have hcne : ¬(c = '_') := hhead c rfl
    rw [List.all_cons, Bool.and_eq_true] at hall
    by_cases hl : isLeadCh c
    · rw [sanitizeFinish, dif_neg (List.cons_ne_nil c t)]
      rw [if_pos (by simpa using hl)]
      refine ⟨List.cons_ne_nil c t, ?_, hnd, ?_, hlast⟩
      · rw [List.all_cons, Bool.and_eq_true]; exact hall
      · intro c' h'
        have : c' = c := (Option.some_inj.mp h').symm
        subst this
        rw [isLeadCh, Bool.or_eq_true] at hl
        rcases hl with hl | hl
        · exact hl
        · exact absurd (by simpa using hl) hcne
    · rw [sanitizeFinish, dif_neg (List.cons_ne_nil c t)]
      rw [if_neg (by simpa using hl)]
      refine ⟨by simp, ?_, ?_, ?_, ?_⟩
      · rw [List.all_append, Bool.and_eq_true]
        refine ⟨by decide, ?_⟩
        rw [List.all_cons, Bool.and_eq_true]; exact hall
      · exact noDouble_app_head hcne hnd
      · intro c' h'
        have : c' = 'A' := by
          simp only [List.cons_append, List.head?_cons] at h'
          exact (Option.some_inj.mp h').symm
        subst this; decide
      · intro c' h'
        rw [List.getLast?_append] at h'
        cases hgl : (c :: t).getLast? with
        | none =>
          rw [List.getLast?_eq_none_iff] at hgl
          exact absurd hgl (List.cons_ne_nil c t)
        | some d =>
          rw [hgl] at h'
          have hdc : d = c' := by simpa [Option.or] using h'
          exact hdc ▸ hlast d hgl

/-- All outputs of `sanitizeCore` are canonical. -/
theorem sanitizeCore_canonical (s : Str) :
    sanitizeCore s ≠ [] ∧
    (sanitizeCore s).all isWordCh = true ∧
    noDoubleUS (sanitizeCore s) = true ∧
    (∀ c, (sanitizeCore s).head? = some c → isLetterCh c = true) ∧
    (∀ c, (sanitizeCore s).getLast? = some c → ¬(c = '_')) := by
  apply sanitizeFinish_canonical
  · exact stripUS_all (collapse_all _ (map_word_all s))
  · exact stripUS_noDouble (collapse_noDouble _)
  · intro c h; exact stripUS_head h
  · intro c h; exact stripUS_last h

theorem isIdent_of_canonical {r : Str} (hne : r ≠ []) (hall : r.all isWordCh = true)
    (hhead : ∀ c, r.head? = some c → isLetterCh c = true) : isIdentStr r = true := by
  cases r with
  | nil => exact absurd rfl hne
  | cons c t =>
    rw [List.all_cons, Bool.and_eq_true] at hall
    simp only [isIdentStr, Bool.and_eq_true]
    refine ⟨?_, hall.2⟩
    rw [isLeadCh, Bool.or_eq_true]
    left
    exact hhead c rfl

/-- C2: key sanitisation is total: for every input (any string, the empty
string, or `None`) and every NFKD decomposition, the result is a nonempty
identifier matching `[A-Za-z_][A-Za-z0-9_]*` in full. -/
theorem c2_sanitize_total (nfkd : Char → List Char) (raw : Option Str) :
    isIdentStr (sanitize_key nfkd raw) = true := by
  obtain ⟨hne, hall, _, hhead, _⟩ :=
    sanitizeCore_canonical (((raw.getD []).map nfkd).flatten.filter (fun c => c.toNat < 128))
  exact isIdent_of_canonical hne hall hhead

theorem sanitizeCore_fixed {s : Str}
    (hall : s.all isWordCh = true)
    (hnd : noDoubleUS s = true)
    (hhead : ∀ c, s.head? = some c → isLetterCh c = true)
    (hlast : ∀ c, s.getLast? = some c → ¬(c = '_'))
    (hne : s ≠ []) :
    sanitizeCore s = s := by
  obtain ⟨c, t, hct⟩ := List.exists_cons_of_ne_nil hne
  subst hct
  have hletter := hhead c rfl
  have hcne : ¬(c = '_') := by
    intro he
    rw [he] at hletter
    exact absurd hletter (by decide)
  have h1 : (c :: t).map (fun x => if isWordCh x then x else '_') = c :: t :=
    map_word_id _ hall
  have h2 : collapseUS (c :: t) = c :: t := collapse_id _ hnd
  have h3 : dropLeadUS (c :: t) = c :: t := by
    rw [dropLeadUS, List.dropWhile_cons, if_neg (by simpa using hcne)]
  have h4 : dropTrailUS (c :: t) = c :: t := by
    cases hrev : (c :: t).reverse with
    | nil =>
      rw [List.reverse_eq_nil_iff] at hrev
      exact absurd hrev (List.cons_ne_nil c t)
    | cons d t2 =>
      have hgl : (c :: t).getLast? = some d := by
        rw [← List.head?_reverse, hrev, List.head?_cons]
      have hd := hlast d hgl
      rw [dropTrailUS, hrev, List.dropWhile_cons, if_neg (by simp [hd]), ← hrev,
        List.reverse_reverse]
  have h5 : stripUS (c :: t) = c :: t := by rw [stripUS, h3, h4]
  rw [sanitizeCore, h1, h2, h5, sanitizeFinish, dif_neg hne]
  rw [if_pos (by rw [List.head_cons, isLeadCh, Bool.or_eq_true]; left; exact hletter)]

/-- After the NFKD/ASCII stage, a canonical string is a fixed point of the
whole of `sanitize_key`. -/
theorem sanitize_key_fixed {nfkd : Char → List Char}
    (hfix : ∀ c : Char, c.toNat < 128 → nfkd c = [c]) {s : Str}
    (hall : s.all isWordCh = true)
    (hnd : noDoubleUS s = true)
    (hhead : ∀ c, s.head? = some c → isLetterCh c = true)
    (hlast : ∀ c, s.getLast? = some c → ¬(c = '_'))
    (hne : s ≠ []) :
    sanitize_key nfkd (some s) = s := by
  have hascii : s.all (fun c => decide (c.toNat < 128)) = true := by
    rw [List.all_eq_true] at hall ⊢
    intro c hc
    rw [decide_eq_true_eq]
    exact wordCh_ascii (hall c hc)
  have hfl : (s.map nfkd).flatten = s := flatten_fix hfix s hascii
  have hfi : s.filter (fun c => decide (c.toNat < 128)) = s := by
    rw [List.filter_eq_self]
    rw [List.all_eq_true] at hascii
    exact hascii
  rw [sanitize_key, Option.getD_some, hfl, hfi]
  exact sanitizeCore_fixed hall hnd hhead hlast hne

/-- C3: key sanitisation is idempotent: applying `sanitize_key` to its own
output returns it unchanged (the NFKD decomposition fixes ASCII characters,
which is the defining property of NFKD on ASCII, taken as a hypothesis). -/
theorem c3_sanitize_idempotent (nfkd : Char → List Char)
    (hfix : ∀ c : Char, c.toNat < 128 → nfkd c = [c]) (s : Str) :
    sanitize_key nfkd (some (sanitize_key nfkd (some s))) = sanitize_key nfkd (some s) := by
  obtain ⟨hne, hall, hnd, hhead, hlast⟩ :=
    sanitizeCore_canonical ((s.map nfkd).flatten.filter (fun c => c.toNat < 128))
  exact sanitize_key_fixed hfix hall hnd hhead hlast hne

/-- Witness for C3 with the identity decomposition at a concrete input. -/
theorem c3_witness :
    sanitize_key (fun c => [c]) (some (sanitize_key (fun c => [c]) (some "Ab-2".data)))
      = sanitize_key (fun c => [c]) (some "Ab-2".data) :=
  c3_sanitize_idempotent (fun c => [c]) (fun _ _ => rfl) "Ab-2".data

-- ---------------------------------------------------------------------------
-- C1 : grouping collapses suffix variants to one retained key
-- ---------------------------------------------------------------------------

theorem foldl_dinsert_mem {α β : Type} (f : β → Str) (g : β → α) :
    ∀ (l : List β) (d : Dict α) (k : Str), k ∈ dkeys d →
      k ∈ dkeys (l.foldl (fun d b => dinsert d (f b) (g b)) d) := by
  intro l
  induction l with
  | nil => intro d k h; exact h
  | cons b rest ih =>
    intro d k h
    exact ih _ k (mem_dkeys_dinsert_mono (f b) (g b) h)

theorem foldl_dinsert_mem_self {α β : Type} (f : β → Str) (g : β → α) :
    ∀ (l : List β) (d : Dict α) (b : β), b ∈ l →
      f b ∈ dkeys (l.foldl (fun d b => dinsert d (f b) (g b)) d) := by
  intro l
  induction l with
  | nil => intro d b h; simp at h
  | cons b0 rest ih =>
    intro d b h
    rcases List.mem_cons.mp h with h1 | h1
    · subst h1
      exact foldl_dinsert_mem f g rest _ (f b) (mem_dkeys_dinsert_self d (f b) (g b))
    · exact ih _ b h1

theorem foldl_dinsert_nodup {α β : Type} (f : β → Str) (g : β → α) :
    ∀ (l : List β) (d : Dict α), (dkeys d).Nodup →
      (dkeys (l.foldl (fun d b => dinsert d (f b) (g b)) d)).Nodup := by
  intro l
  induction l with
  | nil => intro d h; exact h
  | cons b rest ih =>
    intro d h
    exact ih _ (dkeys_dinsert_nodup (f b) (g b) h)

theorem parse_line_nodup {d : Dict Str} (ln : Str) (h : (dkeys d).Nodup) :
    (dkeys (parse_line_into d ln)).Nodup := by
  dsimp only [parse_line_into]
  split
  · exact h
  · split
    · exact h
    · split
      · exact h
      · exact dkeys_dinsert_nodup _ _ h

theorem parse_nodup : ∀ (lines : List Str) (d : Dict Str), (dkeys d).Nodup →
    (dkeys (lines.foldl parse_line_into d)).Nodup := by
  intro lines
  induction lines with
  | nil => intro d h; exact h
  | cons ln rest ih =>
    intro d h
    exact ih _ (parse_line_nodup ln h)

/-- Every binding of the `keep_groups` fold maps a group to one of the
written keys, of that very group. -/
theorem kg_fold_prop (ksfull : List Str) : ∀ (ks : List Str) (acc : Dict Str),
    (∀ g k0, dlookup acc g = some k0 → key_group k0 = g ∧ k0 ∈ ksfull) →
    (∀ k ∈ ks, k ∈ ksfull) →
    ∀ g k0,
      dlookup (ks.foldl (fun acc k => dinsert acc (key_group k) k) acc) g = some k0 →
      key_group k0 = g ∧ k0 ∈ ksfull := by
  intro ks
  induction ks with
  | nil => intro acc hacc _ g k0 h; exact hacc g k0 h
  | cons k rest ih =>
    intro acc hacc hsub g k0 h
    refine ih _ ?_ (fun k2 h2 => hsub k2 (List.mem_cons_of_mem k h2)) g k0 h
    intro g2 k2 h2
    rw [dlookup_dinsert] at h2
    by_cases hg : g2 = key_group k
    · rw [if_pos hg] at h2
      have : k2 = k := (Option.some_inj.mp h2).symm
      subst this
      exact ⟨hg.symm, hsub k2 (List.mem_cons_self k2 rest)⟩
    · rw [if_neg hg] at h2
      exact hacc g2 k2 h2

theorem kg_fold_lookup_mono : ∀ (ks : List Str) (acc : Dict Str) (g : Str),
    (dlookup acc g).isSome = true →
    (dlookup (ks.foldl (fun acc k => dinsert acc (key_group k) k) acc) g).isSome = true := by
  intro ks
  induction ks with
  | nil => intro acc g h; exact h
  | cons k rest ih =>
    intro acc g h
    apply ih
    rw [dlookup_dinsert]
    by_cases hg : g = key_group k
    · rw [if_pos hg]; rfl
    · rw [if_neg hg]; exact h

theorem kg_fold_mem : ∀ (ks : List Str) (acc : Dict Str) (k : Str), k ∈ ks →
    (dlookup (ks.foldl (fun acc k => dinsert acc (key_group k) k) acc) (key_group k)).isSome
      = true := by
  intro ks
  induction ks with
  | nil => intro acc k h; simp at h
  | cons k0 rest ih =>
    intro acc k h
    rcases List.mem_cons.mp h with h1 | h1
    · subst h1
      exact kg_fold_lookup_mono rest (dinsert acc (key_group k) k) (key_group k)
        (by rw [dlookup_dinsert, if_pos rfl]; rfl)
    · exact ih _ k h1

theorem countP_eq_one_of_nodup_mem : ∀ (l : List Str), l.Nodup → ∀ a ∈ l,
    l.countP (fun x => decide (x = a)) = 1 := by
  intro l
  induction l with
  | nil => intro _ a h; simp at h
  | cons b rest ih =>
    intro hnd a h
    rw [List.nodup_cons] at hnd
    rcases List.mem_cons.mp h with h1 | h1
    · subst h1
      rw [List.countP_cons_of_pos _ _ (by simp)]
      have h0 : rest.countP (fun x => decide (x = a)) = 0 := by
        rw [List.countP_eq_zero]
        intro x hx
        simp only [decide_eq_true_eq]
        intro he
        subst he
        exact hnd.1 hx
      rw [h0]
    · have hba : ¬(b = a) := by
        intro he; subst he; exact hnd.1 h1
      rw [List.countP_cons_of_neg _ _ (by simpa using hba)]
      exact ih hnd.2 a h1

theorem countP_congr_own {α : Type} : ∀ (l : List α) {p q : α → Bool},
    (∀ a ∈ l, p a = q a) → l.countP p = l.countP q := by
  intro l
  induction l with
  | nil => intro p q _; rfl
  | cons b rest ih =>
    intro p q h
    have hb := h b (List.mem_cons_self b rest)
    cases hp : p b with
    | true =>
      rw [List.countP_cons_of_pos _ _ hp, List.countP_cons_of_pos _ _ (hb ▸ hp)]
      rw [ih (fun a ha => h a (List.mem_cons_of_mem b ha))]
    | false =>
      rw [List.countP_cons_of_neg _ _ (by simp [hp]), List.countP_cons_of_neg _ _ (by
        simp [← hb, hp])]
      rw [ih (fun a ha => h a (List.mem_cons_of_mem b ha))]

/-- Counting keys of the winner's group in the cleaned dictionary equals
counting occurrences of the winner among the keys. -/
theorem count_aux (kg : Dict Str) (gw : Str) (k0 : Str)
    (hk0 : dlookup kg gw = some k0) (hg0 : key_group k0 = gw) :
    ∀ d : Dict Str,
      (dkeys (d.filter (keepPred kg))).countP (fun k => decide (key_group k = gw))
        = (dkeys d).countP (fun k => decide (k = k0)) := by
  intro d
  induction d with
  | nil => rfl
  | cons kv rest ih =>
    by_cases hp : keepPred kg kv = true
    · rw [List.filter_cons_of_pos hp]
      rw [dkeys_cons, dkeys_cons]
      by_cases hgeq : key_group kv.1 = gw
      · have hk : kv.1 = k0 := by
          rw [keepPred, hgeq, hk0] at hp
          simpa using hp
        rw [List.countP_cons_of_pos _ _ (by simpa using hgeq),
          List.countP_cons_of_pos _ _ (by simpa using hk), ih]
      · have hne : ¬(kv.1 = k0) := fun he => hgeq (by rw [he, hg0])
        rw [List.countP_cons_of_neg _ _ (by simpa using hgeq),
          List.countP_cons_of_neg _ _ (by simpa using hne), ih]
    · rw [List.filter_cons_of_neg hp]
      have hne : ¬(kv.1 = k0) := by
        intro he
        apply hp
        rw [keepPred, he, hg0, hk0]
        simp
      rw [dkeys_cons, List.countP_cons_of_neg _ _ (by simpa using hne), ih]

/-- C1: after `upsert_entries_and_clean`, the section dictionary contains,
for each written key, exactly one key whose `key_group` equals the written
key's group: the group's retained key.  All other suffix variants of the
group are deleted. -/
theorem c1_group_collapse (text : Str) (items : List (Str × Str)) (kw v : Str)
    (hmem : (kw, v) ∈ items) :
    (dkeys (upsert_final_dict text items)).countP
      (fun k => decide (key_group k = key_group kw)) = 1 := by
  have hkw_list : kw ∈ items.map Prod.fst := List.mem_map.mpr ⟨(kw, v), hmem, rfl⟩
  have hsome := kg_fold_mem (items.map Prod.fst) [] kw hkw_list
  obtain ⟨k0, hk0⟩ := Option.isSome_iff_exists.mp hsome
  have hprops := kg_fold_prop (items.map Prod.fst) (items.map Prod.fst) []
    (fun g k1 h => by simp [dlookup] at h) (fun k h => h) (key_group kw) k0 hk0
  obtain ⟨hg0, hmem0⟩ := hprops
  obtain ⟨kv0, hkv0, hkv0f⟩ := List.mem_map.mp hmem0
  have hk0_d1 : k0 ∈ dkeys (items.foldl
      (fun d kv => dinsert d kv.1 (normalize_path kv.2))
      (parse_section_as_dict (section_lines_of text))) := by
    have hmm := foldl_dinsert_mem_self (f := Prod.fst) (g := fun kv => normalize_path kv.2)
      items (parse_section_as_dict (section_lines_of text)) kv0 hkv0
    rw [hkv0f] at hmm
    exact hmm
  have hnd1 : (dkeys (items.foldl
      (fun d kv => dinsert d kv.1 (normalize_path kv.2))
      (parse_section_as_dict (section_lines_of text)))).Nodup :=
    foldl_dinsert_nodup (f := Prod.fst) (g := fun kv => normalize_path kv.2) items _
      (parse_nodup _ [] List.nodup_nil)
  exact (count_aux _ (key_group kw) k0 hk0 hg0 _).trans
    (countP_eq_one_of_nodup_mem _ hnd1 k0 hk0_d1)

/-- Witness for C1: writing `Tool` into an empty INI leaves exactly one key
of group `tool`. -/
theorem c1_witness :
    (dkeys (upsert_final_dict [] [("Tool".data, ['p'])])).countP
      (fun k => decide (key_group k = key_group "Tool".data)) = 1 :=
  c1_group_collapse [] [("Tool".data, ['p'])] "Tool".data ['p'] (by decide)

-- ---------------------------------------------------------------------------
-- C9 : the rewrite only touches the [QRun] section
-- ---------------------------------------------------------------------------

theorem concatAll_cons (a : Str) (ls : List Str) : concatAll (a :: ls) = a ++ concatAll ls :=
  rfl

set_option maxHeartbeats 2000000 in
theorem join_splitAux : ∀ (s acc : Str),
    concatAll (splitLinesAux s acc) = acc.reverse ++ s := by
  intro s acc
  induction s, acc using splitLinesAux.induct with
  | case1 acc h =>
    rw [List.isEmpty_iff] at h
    subst h
    rfl
  | case2 acc h =>
    simp [splitLinesAux, h, concatAll]
  | case3 rest acc ih =>
    simp [splitLinesAux, concatAll] at ih ⊢
    simp [ih]
  | case4 c rest acc hne hbr ih =>
    rw [splitLinesAux]
    · rw [if_pos hbr, concatAll_cons, ih]
      simp
    · exact hne
  | case5 c rest acc hne hbr ih =>
    rw [splitLinesAux]
    · rw [if_neg hbr, ih]
      simp
    · exact hne

/-- `splitlines(keepends=True)` loses nothing: joining the lines restores
the text. -/
theorem join_splitLines (s : Str) : concatAll (splitLinesKE s) = s := by
  simpa using join_splitAux s []

theorem get_qrun_bounds_fst (text : Str) : (get_qrun_bounds text).1 = splitLinesKE text := by
  unfold get_qrun_bounds
  cases h1 : (splitLinesKE text).findIdx? isQrunHeader with
  | none => simp [h1]
  | some s =>
    cases h2 : ((splitLinesKE text).drop (s + 1)).findIdx? isSectionStartLine with
    | none => simp [h1, h2]
    | some j => simp [h1, h2]

/-- C9: `upsert_entries_and_clean` only rewrites the `[QRun]` section: when
the section exists with bounds `(s, e)`, the output is the joined lines
before index `s`, then the rebuilt section, then the joined lines from
index `e`; when it does not exist, the output is the whole original text
followed by the new section. -/
theorem c9_frame (text : Str) (items : List (Str × Str)) :
    ((get_qrun_bounds text).2 = none →
      upsert_entries_and_clean text items
        = text ++ rebuild_section_text (upsert_final_dict text items)) ∧
    (∀ s e, (get_qrun_bounds text).2 = some (s, e) →
      upsert_entries_and_clean text items
        = concatAll ((get_qrun_bounds text).1.take s)
          ++ rebuild_section_text (upsert_final_dict text items)
          ++ concatAll ((get_qrun_bounds text).1.drop e)) := by
  constructor
  · intro h
    unfold upsert_entries_and_clean
    simp only [h, get_qrun_bounds_fst, join_splitLines]
    simp
  · intro s e h
    unfold upsert_entries_and_clean
    simp only [h]

/-- Witness for C9: one input without a section, one with. -/
theorem c9_witness :
    upsert_entries_and_clean ['a'] []
      = ['a'] ++ rebuild_section_text (upsert_final_dict ['a'] []) ∧
    upsert_entries_and_clean "[QRun]\r\nx=1\r\n".data []
      = concatAll ((get_qrun_bounds "[QRun]\r\nx=1\r\n".data).1.take 0)
        ++ rebuild_section_text (upsert_final_dict "[QRun]\r\nx=1\r\n".data [])
        ++ concatAll ((get_qrun_bounds "[QRun]\r\nx=1\r\n".data).1.drop 2) :=
  ⟨(c9_frame ['a'] []).1 (by decide),
   (c9_frame "[QRun]\r\nx=1\r\n".data []).2 0 2 (by decide)⟩

-- ---------------------------------------------------------------------------
-- C10 : scanned keys are pairwise distinct
-- ---------------------------------------------------------------------------

theorem natToDecAux_irrel : ∀ (n f1 f2 : Nat), n < f1 → n < f2 →
    natToDecAux n f1 = natToDecAux n f2 := by
  intro n
  induction n using Nat.strong_induction_on with
  | _ n ih =>
    intro f1 f2 h1 h2
    match f1, f2 with
    | 0, _ => omega
    | _ + 1, 0 => omega
    | f1 + 1, f2 + 1 =>
      by_cases hn : n < 10
      · simp [natToDecAux, hn]
      · have hdiv : n / 10 < n := Nat.div_lt_self (by omega) (by omega)
        simp only [natToDecAux, if_neg hn]
        rw [ih (n / 10) hdiv f1 f2 (by omega) (by omega)]

theorem natToDec_unfold (n : Nat) : natToDec n =
    if n < 10 then [digitChar n] else natToDec (n / 10) ++ [digitChar (n % 10)] := by
  rw [natToDec]
  by_cases hn : n < 10
  · simp [natToDecAux, hn]
  · have hdiv : n / 10 < n := Nat.div_lt_self (by omega) (by omega)
    simp only [natToDecAux, if_neg hn]
    rw [natToDecAux_irrel (n / 10) n (n / 10 + 1) (by omega) (by omega)]
    rfl

theorem digitChar_inj : ∀ d < 10, ∀ e < 10, digitChar d = digitChar e → d = e := by
  decide

theorem natToDec_ne_nil (n : Nat) : natToDec n ≠ [] := by
  rw [natToDec_unfold]
  by_cases hn : n < 10 <;> simp [hn]

theorem natToDec_inj : ∀ m n : Nat, natToDec m = natToDec n → m = n := by
  intro m
  induction m using Nat.strong_induction_on with
  | _ m ih =>
    intro n h
    rw [natToDec_unfold m, natToDec_unfold n] at h
    by_cases hm : m < 10 <;> by_cases hn : n < 10
    · rw [if_pos hm, if_pos hn] at h
      have hd : digitChar m = digitChar n := by
        injection h
      exact digitChar_inj m hm n hn hd
    · rw [if_pos hm, if_neg hn] at h
      have hlen := congrArg List.length h
      simp at hlen
      exact absurd hlen (natToDec_ne_nil _)
    · rw [if_neg hm, if_pos hn] at h
      have hlen := congrArg List.length h
      simp at hlen
      exact absurd hlen (natToDec_ne_nil _)
    · rw [if_neg hm, if_neg hn] at h
      have hdiv : m / 10 < m := Nat.div_lt_self (by omega) (by omega)
      obtain ⟨h1, h2⟩ := List.append_inj' h rfl
      have hq : m / 10 = n / 10 := ih (m / 10) hdiv (n / 10) h1
      have hr : m % 10 = n % 10 := by
        have hd : digitChar (m % 10) = digitChar (n % 10) := by injection h2
        exact digitChar_inj _ (Nat.mod_lt _ (by omega)) _ (Nat.mod_lt _ (by omega)) hd
      omega

theorem candKey_ne_base (base : Str) (i : Nat) : candKey base i ≠ base := by
  intro h
  have hlen := congrArg List.length h
  simp [candKey] at hlen

theorem candKey_inj (base : Str) : ∀ i j : Nat, candKey base i = candKey base j → i = j := by
  intro i j h
  rw [candKey, candKey] at h
  have h2 := List.append_cancel_left h
  injection h2 with _ h3
  exact natToDec_inj i j h3

theorem freshLoop_ok (base : Str) (used : List Str) :
    ∀ (fuel : Nat) (key : Str) (idx : Nat),
      (key ∉ used ∨ ∃ j, j < fuel ∧ candKey base (idx + j) ∉ used) →
      freshLoop base used key idx fuel ∉ used := by
  intro fuel
  induction fuel with
  | zero =>
    intro key idx h
    rcases h with h | ⟨j, hj, _⟩
    · exact h
    · omega
  | succ f ih =>
    intro key idx h
    by_cases hk : key ∈ used
    · simp only [freshLoop, if_pos hk]
      rcases h with h | ⟨j, hj, hc⟩
      · exact absurd hk h
      · match j with
        | 0 =>
          apply ih
          left
          simpa using hc
        | j' + 1 =>
          apply ih
          right
          refine ⟨j', by omega, ?_⟩
          have he : idx + 1 + j' = idx + (j' + 1) := by omega
          rw [he]
          exact hc
    · simp only [freshLoop, if_neg hk]
      exact hk

theorem freshKey_not_mem (base : Str) (used : List Str) :
    freshKey base used ∉ used := by
  apply freshLoop_ok
  by_contra hcon
  push_neg at hcon
  obtain ⟨h1, h2⟩ := hcon
  have hsub : ∀ x ∈ base :: (List.range (used.length + 1)).map
      (fun j => candKey base (2 + j)), x ∈ used := by
    intro x hx
    rcases List.mem_cons.mp hx with hx | hx
    · subst hx; exact h1
    · obtain ⟨j, hj, hxe⟩ := List.mem_map.mp hx
      rw [List.mem_range] at hj
      subst hxe
      exact h2 j hj
  have hLnd : (base :: (List.range (used.length + 1)).map
      (fun j => candKey base (2 + j))).Nodup := by
    rw [List.nodup_cons]
    constructor
    · intro hmem
      obtain ⟨j, _, hje⟩ := List.mem_map.mp hmem
      exact candKey_ne_base base (2 + j) hje
    · apply List.Nodup.map ?inj (List.nodup_range _)
      case inj =>
        intro a b hab
        have h2ab := candKey_inj base (2 + a) (2 + b) hab
        omega
  have hle := List.Subperm.length_le (List.subperm_of_subset hLnd hsub)
  simp at hle
  omega

theorem scan_fold_inv (nfkd : Char → List Char) :
    ∀ (files : List (Str × Str)) (used : List Str) (results : List (Str × Str × Str)),
      used.Nodup → (results.map (fun t => t.1)).Nodup →
      (∀ k ∈ results.map (fun t => t.1), k ∈ used) →
      (files.foldl (scanStep nfkd) (used, results)).1.Nodup ∧
      ((files.foldl (scanStep nfkd) (used, results)).2.map (fun t => t.1)).Nodup ∧
      (∀ k ∈ (files.foldl (scanStep nfkd) (used, results)).2.map (fun t => t.1),
        k ∈ (files.foldl (scanStep nfkd) (used, results)).1) := by
  intro files
  induction files with
  | nil => intro used results h1 h2 h3; exact ⟨h1, h2, h3⟩
  | cons rn rest ih =>
    intro used results h1 h2 h3
    rw [List.foldl_cons]
    by_cases hext : (lowerStr (splitextSplit rn.2).2 == ['.', 'e', 'x', 'e']
        || lowerStr (splitextSplit rn.2).2 == ['.', 'l', 'n', 'k']) = true
    · have hstep : scanStep nfkd (used, results) rn =
          (freshKey (sanitize_key nfkd (some (splitextSplit rn.2).1)) used :: used,
           results ++ [(freshKey (sanitize_key nfkd (some (splitextSplit rn.2).1)) used,
             joinPathW rn.1 rn.2, (splitextSplit rn.2).1)]) := by
        dsimp only [scanStep]
        rw [if_pos hext]
      rw [hstep]
      have hkey : freshKey (sanitize_key nfkd (some (splitextSplit rn.2).1)) used ∉ used :=
        freshKey_not_mem _ used
      apply ih
      · exact List.nodup_cons.mpr ⟨hkey, h1⟩
      · rw [List.map_append]
        apply List.Nodup.append h2 (List.nodup_singleton _)
        intro a ha hb
        simp at hb
        subst hb
        exact hkey (h3 _ ha)
      · intro k hk
        rw [List.map_append] at hk
        rcases List.mem_append.mp hk with hk | hk
        · exact List.mem_cons_of_mem _ (h3 k hk)
        · simp at hk
          subst hk
          exact List.mem_cons_self _ _
    · have hstep : scanStep nfkd (used, results) rn = (used, results) := by
        dsimp only [scanStep]
        rw [if_neg hext]
      rw [hstep]
      exact ih used results h1 h2 h3

/-- C10: the keys returned by `scan_executables` are pairwise distinct: a
key is only emitted after the collision loop has moved past every key
already used (appending `_2`, `_3`, … suffixes), for every walk order and
every NFKD decomposition. -/
theorem c10_scan_keys_nodup (nfkd : Char → List Char) (walkFiles : List (Str × Str)) :
    ((scan_executables nfkd walkFiles).map (fun t => t.1)).Nodup :=
  (scan_fold_inv nfkd walkFiles [] [] List.nodup_nil List.nodup_nil
    (by intro k h; simp at h)).2.1

end PyTools
